import Mathlib

/-!
Verification development for the cw4-group membership contract
(`src/contracts/cw4-group/src/contract.rs`).

The contract maintains a weighted membership roster backed by a
height-indexed snapshot store: per-member weight histories (`MEMBERS`),
a latest-only identity map (`IDS`), a versioned aggregate (`TOTAL`),
configured bounds (`MIN_WEIGHT`/`MAX_WEIGHT`), an admin and a hook list.

The embedding below models:
- u64 checked arithmetic (`Uint64::checked_add` / `checked_sub`) as `Nat`
  operations with an explicit `2 ^ 64` bound;
- each versioned value as an append-only history of
  `(height, value-or-tombstone)` writes (the versioned-store primitive is
  an external library; its contract is taken from the specification:
  "as of height h" reads the latest write at a height `≤ h`, current reads
  the latest write, removal writes a tombstone);
- the storage maps as association lists kept in ascending key order, so
  that range scans iterate keys in ascending order as the store does;
- the host transaction semantics: an entry point that returns an error
  commits nothing (`hostStep` keeps the pre-state and discards messages).

Addresses are modelled as naturals (an ordered key space); address-string
validation is an external collaborator and is out of scope, so
`addr_validate` is the identity here.
-/

namespace Senate

/-- The value `2 ^ 64`, the first value not representable as a `u64`. -/
def U64LIM : Nat := 2 ^ 64

/-- Errors surfaced by the contract (`ContractError` in the source; the
`Std` overflow error raised by `Uint64` checked arithmetic is
`weightOverflow`, and the `Std` not-found error for a never-written item is
`notFound`). -/
inductive ContractError where
  | weightOverflow
  | unauthorized
  | maxWeightExceeded
  | minWeightNotMet
  | notFound
  deriving DecidableEq, Repr

/-- Checked addition `Uint64::checked_add`: fails with an overflow error when the exact sum
is not representable in 64 bits. -/
def checkedAdd (a b : Nat) : Except ContractError Nat :=
  if a + b < U64LIM then .ok (a + b) else .error .weightOverflow

/-- Checked subtraction `Uint64::checked_sub`: fails with an overflow error on underflow. -/
def checkedSub (a b : Nat) : Except ContractError Nat :=
  if b ≤ a then .ok (a - b) else .error .weightOverflow

/-- Modelled from the spec: one versioned history (the snapshot-store
primitive, `SnapshotMap` entry / `SnapshotItem`): the ordered sequence of
`(height, value)` writes, where `none` is a removal tombstone. -/
abbrev History := List (Nat × Option Nat)

/-- Current value of a history: the value of the latest write (absent when
never written or when the latest write is a tombstone). -/
def histCurrent (h : History) : Option Nat :=
  List.foldl (fun _ e => e.2) none h

/-- Modelled from the spec: `may_load_at_height` — the value of the latest
write at a height `≤ height`, absent if there is none or it is a tombstone. -/
def histAt (h : History) (height : Nat) : Option Nat :=
  histCurrent (h.filter (fun e => decide (e.1 ≤ height)))

/-- A storage map: an association list in ascending key order (the store
iterates keys in ascending order). -/
abbrev Table (α : Type) := List (Nat × α)

/-- Point lookup in a storage map. -/
def findVal {α : Type} (t : Table α) (a : Nat) : Option α :=
  (t.find? (fun e => e.1 == a)).map (fun e => e.2)

/-- Write a key's entry, keeping keys in ascending order. -/
def setVal {α : Type} : Table α → Nat → α → Table α
  | [], a, v => [(a, v)]
  | (k, w) :: rest, a, v =>
    if a < k then (a, v) :: (k, w) :: rest
    else if a = k then (a, v) :: rest
    else (k, w) :: setVal rest a v

/-- The weight history stored for an address (empty when never written). -/
def memHist (t : Table History) (a : Nat) : History :=
  (findVal t a).getD []

/-- Lookup `MEMBERS.may_load`: the current weight of an address. -/
def mayLoad (t : Table History) (a : Nat) : Option Nat :=
  histCurrent (memHist t a)

/-- Write `MEMBERS.save`: append a weight write at `height`. -/
def memSave (t : Table History) (a : Nat) (w : Nat) (height : Nat) : Table History :=
  setVal t a (memHist t a ++ [(height, some w)])

/-- Removal `MEMBERS.remove`: append a tombstone at `height`. -/
def memRemove (t : Table History) (a : Nat) (height : Nat) : Table History :=
  setVal t a (memHist t a ++ [(height, none)])

/-- The currently-live members with their weights, in storage (key) order:
what `MEMBERS.range` iterates. -/
def livePairs (t : Table History) : List (Nat × Nat) :=
  t.filterMap (fun e => (histCurrent e.2).map (fun w => (e.1, w)))

/-- The currently-live weights in storage order. -/
def liveVals (t : Table History) : List Nat :=
  t.filterMap (fun e => histCurrent e.2)

/-- The fold `assert_weights` performs over all live member weights
(`.fold(0u64, |t, m| t + w)` in the source). -/
def sumW (t : Table History) : Nat :=
  List.foldl (fun a b => a + b) 0 (liveVals t)

/-- A member record in messages (`cw4::Member`). -/
structure Member where
  addr : Nat
  weight : Nat
  identity : String
  deriving DecidableEq, Repr

/-- One diff triple (`cw4::MemberDiff`). -/
structure MemberDiff where
  key : Nat
  old : Option Nat
  new : Option Nat
  deriving DecidableEq, Repr

/-- The contract's persisted state: bounds, admin, member weight
histories, identities, aggregate history and hook list. -/
structure ContractState where
  minWeight : Option Nat
  maxWeight : Option Nat
  admin : Option Nat
  members : Table History
  ids : Table String
  total : History
  hooks : List Nat
  deriving DecidableEq, Repr

/-- Fresh (empty) storage, as seen by `instantiate`. -/
def initState : ContractState :=
  { minWeight := none, maxWeight := none, admin := none,
    members := [], ids := [], total := [], hooks := [] }

/-- Authorization `ADMIN.assert_admin`: errors unless the caller is the current admin
(no admin set rejects everyone). -/
def assertAdmin (admin : Option Nat) (caller : Nat) : Except ContractError Unit :=
  if admin = some caller then .ok () else .error .unauthorized

/-- Load `TOTAL.load`: the current aggregate, an error if never written. -/
def loadTotal (s : ContractState) : Except ContractError Nat :=
  match histCurrent s.total with
  | some t => .ok t
  | none => .error .notFound

/-- Load `Item::load` for the bound items. -/
def loadItem (x : Option Nat) : Except ContractError Nat :=
  match x with
  | some v => .ok v
  | none => .error .notFound

/-- The invariant checker `assert_weights`: re-derives the total by summing all currently-live
member weights and requires it to lie within the configured bounds,
checking the upper bound first. -/
def assertWeights (s : ContractState) : Except ContractError Unit :=
  match loadItem s.minWeight with
  | .error e => .error e
  | .ok minw =>
    match loadItem s.maxWeight with
    | .error e => .error e
    | .ok maxw =>
      let total := sumW s.members
      if maxw < total then .error .maxWeightExceeded
      else if total < minw then .error .minWeightNotMet
      else .ok ()

/-- The member loop of `create`: checked-add each weight into the running
total, save the weight at `height` and the identity. -/
def createLoop (height : Nat) :
    List Member → Nat → Table History → Table String →
    Except ContractError (Nat × Table History × Table String)
  | [], total, mems, ids => .ok (total, mems, ids)
  | m :: rest, total, mems, ids =>
    match checkedAdd total m.weight with
    | .error e => .error e
    | .ok total1 =>
      createLoop height rest total1
        (memSave mems m.addr m.weight height)
        (setVal ids m.addr m.identity)

/-- Operation `create`: save the bounds, set the admin, add all members, save the
aggregate at `height`, then run `assert_weights`. -/
def createFrom (s : ContractState) (admin : Option Nat) (members : List Member)
    (minWeight maxWeight height : Nat) : Except ContractError ContractState :=
  let s1 : ContractState :=
    { s with minWeight := some minWeight, maxWeight := some maxWeight, admin := admin }
  match createLoop height members 0 s1.members s1.ids with
  | .error e => .error e
  | .ok r =>
    let s2 : ContractState :=
      { s1 with members := r.2.1, ids := r.2.2, total := s1.total ++ [(height, some r.1)] }
    match assertWeights s2 with
    | .error e => .error e
    | .ok _ => .ok s2

/-- Operation `create` run on fresh storage, as `instantiate` does. -/
def createE (admin : Option Nat) (members : List Member)
    (minWeight maxWeight height : Nat) : Except ContractError ContractState :=
  createFrom initState admin members minWeight maxWeight height

/-- The add loop of `update_members`: for each member to add, save its
identity, then update its weight entry (checked-subtracting the old weight
from and checked-adding the new weight to the running total and pushing a
diff triple). -/
def applyAdds (height : Nat) :
    List Member → ContractState → Nat → List MemberDiff →
    Except ContractError (ContractState × Nat × List MemberDiff)
  | [], s, total, diffs => .ok (s, total, diffs)
  | m :: rest, s, total, diffs =>
    match checkedSub total ((mayLoad s.members m.addr).getD 0) with
    | .error e => .error e
    | .ok t1 =>
      match checkedAdd t1 m.weight with
      | .error e => .error e
      | .ok t2 =>
        applyAdds height rest
          { s with ids := setVal s.ids m.addr m.identity,
                   members := memSave s.members m.addr m.weight height }
          t2
          (diffs ++ [{ key := m.addr, old := mayLoad s.members m.addr,
                       new := some m.weight }])

/-- The remove loop of `update_members`: a remove of an address with no
current weight is skipped silently; otherwise a diff triple is pushed, the
weight is checked-subtracted from the running total and a tombstone is
written. -/
def applyRemoves (height : Nat) :
    List Nat → ContractState → Nat → List MemberDiff →
    Except ContractError (ContractState × Nat × List MemberDiff)
  | [], s, total, diffs => .ok (s, total, diffs)
  | a :: rest, s, total, diffs =>
    match mayLoad s.members a with
    | none => applyRemoves height rest s total diffs
    | some w =>
      match checkedSub total w with
      | .error e => .error e
      | .ok t1 =>
        applyRemoves height rest
          { s with members := memRemove s.members a height }
          t1
          (diffs ++ [{ key := a, old := some w, new := none }])

/-- Operation `update_members`: admin check, load the aggregate, apply all adds then
all removes, save the new aggregate at `height`, run `assert_weights`, and
return the accumulated diff. -/
def updateMembers (s : ContractState) (height : Nat) (sender : Nat)
    (toAdd : List Member) (toRemove : List Nat) :
    Except ContractError (ContractState × List MemberDiff) :=
  match assertAdmin s.admin sender with
  | .error e => .error e
  | .ok _ =>
    match loadTotal s with
    | .error e => .error e
    | .ok total =>
      match applyAdds height toAdd s total [] with
      | .error e => .error e
      | .ok r1 =>
        match applyRemoves height toRemove r1.1 r1.2.1 r1.2.2 with
        | .error e => .error e
        | .ok r2 =>
          let s3 : ContractState :=
            { r2.1 with total := r2.1.total ++ [(height, some r2.2.1)] }
          match assertWeights s3 with
          | .error e => .error e
          | .ok _ => .ok (s3, r2.2.2)

/-- Response of `query_member` (`cw4::MemberResponse`). -/
structure MemberResponse where
  weight : Option Nat
  identity : Option String
  deriving DecidableEq, Repr

/-- The weight lookup `query_member` performs: at a height when one is
given, current otherwise. -/
def memberAt (s : ContractState) (a : Nat) (height : Option Nat) : Option Nat :=
  match height with
  | some h => histAt (memHist s.members a) h
  | none => mayLoad s.members a

/-- Query `query_member`: reports the identity only alongside a present weight. -/
def query_member (s : ContractState) (a : Nat) (height : Option Nat) : MemberResponse :=
  match memberAt s a height with
  | some w => { weight := some w, identity := findVal s.ids a }
  | none => { weight := none, identity := none }

/-- Query `query_total_weight`: the aggregate at the given height (current when
absent), with a missing value rendered as `0` (`unwrap_or_default`). -/
def query_total_weight (s : ContractState) (height : Option Nat) : Nat :=
  (match height with
   | some h => histAt s.total h
   | none => histCurrent s.total).getD 0

/-- Pagination cap (`MAX_LIMIT`). -/
def MAX_LIMIT : Nat := 30

/-- Pagination default (`DEFAULT_LIMIT`). -/
def DEFAULT_LIMIT : Nat := 10

/-- The default identity string; the source `unwrap`s the identity of a
live member, which is always present for states built by the contract. -/
def defaultId : String := ""

/-- The `Bound::exclusive(start_after)` lower bound of the range scan:
keep only keys strictly greater than `start_after` (no bound keeps all). -/
def saPred (start_after : Option Nat) (e : Nat × Nat) : Bool :=
  match start_after with
  | some b => decide (b < e.1)
  | none => true

/-- Query `query_list_members`: range-scan the live members strictly after
`start_after`, taking at most `limit` entries (default 10, capped at 30). -/
def query_list_members (s : ContractState) (start_after : Option Nat)
    (limit : Option Nat) : List Member :=
  let lim := min (limit.getD DEFAULT_LIMIT) MAX_LIMIT
  (((livePairs s.members).filter (saPred start_after)).take lim).map
    (fun e =>
      { addr := e.1, weight := e.2,
        identity := (findVal s.ids e.1).getD defaultId })

/-- The two mutating entry points covered by this development. -/
inductive Call where
  | create (admin : Option Nat) (members : List Member) (minWeight maxWeight : Nat)
  | update (sender : Nat) (toAdd : List Member) (toRemove : List Nat)

/-- One hook notification: the subscriber address together with the full
diff of the transaction. -/
abbrev HookMsg := Nat × List MemberDiff

/-- The entry-point logic: `instantiate` (whose response carries no
messages) and `execute_update_members` (which prepares one hook message
per registered hook carrying the full diff, then re-runs
`assert_weights`). -/
def exec (s : ContractState) (height : Nat) :
    Call → Except ContractError (ContractState × List HookMsg)
  | .create admin members minWeight maxWeight =>
    match createFrom s admin members minWeight maxWeight height with
    | .error e => .error e
    | .ok s1 => .ok (s1, [])
  | .update sender toAdd toRemove =>
    match updateMembers s height sender toAdd toRemove with
    | .error e => .error e
    | .ok r =>
      let msgs := r.1.hooks.map (fun h => (h, r.2))
      match assertWeights r.1 with
      | .error e => .error e
      | .ok _ => .ok (r.1, msgs)

/-- The host's transaction semantics: storage writes of an entry point
that returns an error are reverted wholesale, so the state visible after
a failed call is the pre-state. -/
def hostStep (s : ContractState) (height : Nat) (c : Call) : ContractState :=
  match exec s height c with
  | .ok r => r.1
  | .error _ => s

/-- The hook notifications actually dispatched by the host: none when the
entry point fails. -/
def msgsOf (s : ContractState) (height : Nat) (c : Call) : List HookMsg :=
  match exec s height c with
  | .ok r => r.2
  | .error _ => []

/-- Keys of a storage map are in strictly ascending order. -/
def SortedKeys {α : Type} (t : Table α) : Prop :=
  List.Pairwise (fun a b => a < b) (t.map (fun e => e.1))

/-- States reachable by a `create` on fresh storage followed by any
sequence of successful `update_members` transactions. -/
inductive Reachable : ContractState → Prop where
  | create : ∀ admin members minWeight maxWeight height s,
      createE admin members minWeight maxWeight height = .ok s → Reachable s
  | update : ∀ s height sender toAdd toRemove s1 d,
      Reachable s → updateMembers s height sender toAdd toRemove = .ok (s1, d) →
      Reachable s1

/-- As `Reachable`, but the initial `create` is given pairwise-distinct
member addresses. -/
inductive ReachableD : ContractState → Prop where
  | create : ∀ admin members minWeight maxWeight height s,
      (members.map Member.addr).Nodup →
      createE admin members minWeight maxWeight height = .ok s → ReachableD s
  | update : ∀ s height sender toAdd toRemove s1 d,
      ReachableD s → updateMembers s height sender toAdd toRemove = .ok (s1, d) →
      ReachableD s1

/-- Modelled from the spec: the diff contribution of the adds — "one
triple `(address, old_weight_or_absent, Some(new_weight))` per element of
`add` in input order", over an evolving weight view. Returns the diff list
and the weight view after all adds. -/
def specAddDiffs (w : Nat → Option Nat) :
    List Member → List MemberDiff × (Nat → Option Nat)
  | [] => ([], w)
  | m :: rest =>
    let r := specAddDiffs (fun a => if a = m.addr then some m.weight else w a) rest
    ({ key := m.addr, old := w m.addr, new := some m.weight } :: r.1, r.2)

/-- Modelled from the spec: the diff contribution of the removes — "one
triple `(address, Some(old_weight), None)` per element of `remove` that
was currently a member, in input order; removes of non-members contribute
no triple". -/
def specRemoveDiffs (w : Nat → Option Nat) : List Nat → List MemberDiff
  | [] => []
  | a :: rest =>
    match w a with
    | none => specRemoveDiffs w rest
    | some wt =>
      { key := a, old := some wt, new := none } ::
        specRemoveDiffs (fun x => if x = a then none else w x) rest

/-- Modelled from the spec: the full diff record of one transaction — all
adds in input order, then all removes in input order. -/
def specDiff (w : Nat → Option Nat) (toAdd : List Member) (toRemove : List Nat) :
    List MemberDiff :=
  (specAddDiffs w toAdd).1 ++ specRemoveDiffs (specAddDiffs w toAdd).2 toRemove


/-! ### Concrete states and inputs used by witnesses and counterexamples -/

/-- A state whose aggregate is one below the `u64` limit. -/
def sOvf : ContractState :=
  { minWeight := some 0, maxWeight := some 0, admin := some 7,
    members := [], ids := [], total := [(0, some (U64LIM - 1))], hooks := [] }

/-- An added member pushing the aggregate past the `u64` limit. -/
def mOvf : Member := { addr := 1, weight := 2, identity := defaultId }

/-- A state whose only aggregate write is at height 5. -/
def sTot : ContractState := { initState with total := [(5, some 3)] }

/-- The sample member used by concrete reachable states. -/
def mA : Member := { addr := 0, weight := 1, identity := defaultId }

/-- A concrete state created by `create` with one member of weight 1. -/
def sReach : ContractState := (createE none [mA] 0 10 1).toOption.getD initState

/-- A duplicated member list: the same address with weight 1, twice. -/
def dupMembers : List Member := [mA, mA]

/-- The state created from the duplicated member list. -/
def sDup : ContractState := (createE none dupMembers 0 10 1).toOption.getD initState

/-- A single member of weight 7, used with the inconsistent bounds
`min = 10 > max = 5`. -/
def mC2 : Member := { addr := 0, weight := 7, identity := defaultId }

/-- A state with bounds `[1, 100]` and one live member of weight 30. -/
def sW2 : ContractState :=
  { minWeight := some 1, maxWeight := some 100, admin := none,
    members := [(0, [(1, some 30)])], ids := [], total := [], hooks := [] }

/-- A second member, added in the witness transaction. -/
def mB : Member := { addr := 1, weight := 5, identity := defaultId }

/-- A created state with admin 7 and one member `(0, weight 1)`. -/
def sAdm : ContractState := (createE (some 7) [mA] 0 100 1).toOption.getD initState

/-- The result of the witness `update_members` call: add `(1, weight 5)`,
remove address 0. -/
def updW : ContractState × List MemberDiff :=
  (updateMembers sAdm 2 7 [mB] [0]).toOption.getD (initState, [])

/-- A state with three recorded members, of which address 1 was removed:
live members are `(0, 10)` and `(2, 5)`. -/
def sList : ContractState :=
  { minWeight := some 0, maxWeight := some 100, admin := none,
    members := [(0, [(1, some 10)]), (1, [(1, some 20), (2, none)]), (2, [(2, some 5)])],
    ids := [(0, defaultId), (1, defaultId), (2, defaultId)],
    total := [(2, some 15)], hooks := [] }

/-- A state where address 0 was a member with identity recorded, then
removed: the identity record survives in storage. -/
def sRem : ContractState :=
  { initState with members := [(0, [(1, some 5), (2, none)])], ids := [(0, defaultId)] }

/-! ### Arithmetic and history lemmas -/

lemma foldl_add_init (l : List Nat) (n : Nat) :
    List.foldl (fun a b => a + b) n l = n + List.foldl (fun a b => a + b) 0 l := by
  induction l generalizing n with
  | nil => simp
  | cons a l ih =>
    simp only [List.foldl_cons, Nat.zero_add]
    rw [ih (n + a), ih a]
    omega

lemma histCurrent_nil : histCurrent [] = none := rfl

lemma histCurrent_append_write (h : History) (n : Nat) (v : Option Nat) :
    histCurrent (h ++ [(n, v)]) = v := by
  simp [histCurrent, List.foldl_append]

lemma checkedAdd_ok {a b c : Nat} (h : checkedAdd a b = .ok c) :
    a + b < U64LIM ∧ c = a + b := by
  unfold checkedAdd at h
  split at h
  · cases h; exact ⟨by assumption, rfl⟩
  · cases h

lemma checkedSub_ok {a b c : Nat} (h : checkedSub a b = .ok c) :
    b ≤ a ∧ c = a - b := by
  unfold checkedSub at h
  split at h
  · cases h; exact ⟨by assumption, rfl⟩
  · cases h

lemma checkedAdd_error_iff (a b : Nat) :
    checkedAdd a b = .error .weightOverflow ↔ U64LIM ≤ a + b := by
  unfold checkedAdd
  split
  next hc => simp; omega
  next hc => simp; omega

lemma checkedSub_error_iff (a b : Nat) :
    checkedSub a b = .error .weightOverflow ↔ a < b := by
  unfold checkedSub
  split
  next hc => simp; omega
  next hc => simp; omega

/-! ### Storage-map lemmas -/

lemma findVal_cons {α : Type} (k : Nat) (v : α) (t : Table α) (b : Nat) :
    findVal ((k, v) :: t) b = if k = b then some v else findVal t b := by
  by_cases h : k = b
  · simp [findVal, List.find?_cons_of_pos, h]
  · simp [findVal, List.find?_cons_of_neg, h]

lemma findVal_setVal {α : Type} (t : Table α) (a b : Nat) (v : α) :
    findVal (setVal t a v) b = if b = a then some v else findVal t b := by
  induction t with
  | nil =>
    by_cases h : b = a
    · simp [setVal, findVal_cons, h]
    · show findVal [(a, v)] b = if b = a then some v else findVal [] b
      rw [findVal_cons, if_neg (fun hh => h hh.symm), if_neg h]
  | cons kv rest ih =>
    obtain ⟨k, w⟩ := kv
    simp only [setVal]
    by_cases h1 : a < k
    · rw [if_pos h1]
      by_cases hba : b = a
      · simp [findVal_cons, hba]
      · rw [findVal_cons]
        rw [if_neg (fun hh => hba hh.symm), if_neg hba]
    · rw [if_neg h1]
      by_cases h2 : a = k
      · rw [if_pos h2]
        subst h2
        by_cases hba : b = a
        · simp [findVal_cons, hba]
        · rw [findVal_cons, if_neg (fun hh => hba hh.symm), if_neg hba,
            findVal_cons, if_neg (fun hh => hba hh.symm)]
      · rw [if_neg h2]
        by_cases hbk : k = b
        · have hba : ¬ b = a := fun hh => h2 (hh ▸ hbk).symm
          rw [findVal_cons, if_pos hbk, if_neg hba, findVal_cons, if_pos hbk]
        · rw [findVal_cons, if_neg hbk, ih, findVal_cons, if_neg hbk]

lemma memHist_setVal (t : Table History) (a b : Nat) (h : History) :
    memHist (setVal t a h) b = if b = a then h else memHist t b := by
  simp only [memHist, findVal_setVal]
  split <;> rfl

lemma mayLoad_memSave (t : Table History) (a b : Nat) (w ht : Nat) :
    mayLoad (memSave t a w ht) b = if b = a then some w else mayLoad t b := by
  simp only [mayLoad, memSave, memHist_setVal]
  split
  · exact histCurrent_append_write _ _ _
  · rfl

lemma mayLoad_memRemove (t : Table History) (a b : Nat) (ht : Nat) :
    mayLoad (memRemove t a ht) b = if b = a then none else mayLoad t b := by
  simp only [mayLoad, memRemove, memHist_setVal]
  split
  · exact histCurrent_append_write _ _ _
  · rfl

lemma mem_keys_setVal {α : Type} {t : Table α} {a b : Nat} {v : α}
    (h : b ∈ (setVal t a v).map (fun e => e.1)) :
    b = a ∨ b ∈ t.map (fun e => e.1) := by
  induction t with
  | nil => simp [setVal] at h; exact Or.inl h
  | cons kv rest ih =>
    obtain ⟨k, w⟩ := kv
    simp only [setVal] at h
    split at h
    · simp at h
      rcases h with h | h | h
      · exact Or.inl h
      · exact Or.inr (by simp [h])
      · exact Or.inr (by simp; exact Or.inr h)
    · split at h
      · simp at h
        rcases h with h | h
        · exact Or.inl h
        · exact Or.inr (by simp; exact Or.inr h)
      · simp at h
        rcases h with h | h
        · exact Or.inr (by simp [h])
        · rcases ih (by simpa using h) with h1 | h1
          · exact Or.inl h1
          · exact Or.inr (by simp; exact Or.inr (by simpa using h1))

lemma sortedKeys_setVal {α : Type} {t : Table α} (hs : SortedKeys t) (a : Nat) (v : α) :
    SortedKeys (setVal t a v) := by
  induction t with
  | nil => simp [SortedKeys, setVal]
  | cons kv rest ih =>
    obtain ⟨k, w⟩ := kv
    simp only [SortedKeys, List.map_cons, List.pairwise_cons] at hs
    obtain ⟨hk, hrest⟩ := hs
    simp only [setVal]
    split
    next h1 =>
      simp only [SortedKeys, List.map_cons, List.pairwise_cons]
      refine ⟨?_, hk, hrest⟩
      intro x hx
      show a < x
      simp only [List.map_cons, List.mem_cons] at hx
      rcases hx with hx | hx
      · exact hx ▸ h1
      · have hlt : k < x := hk x hx
        exact Nat.lt_trans h1 hlt
    next h1 =>
      split
      next h2 =>
        subst h2
        simp only [SortedKeys, List.map_cons, List.pairwise_cons]
        exact ⟨hk, hrest⟩
      next h2 =>
        simp only [SortedKeys, List.map_cons, List.pairwise_cons]
        refine ⟨?_, ih hrest⟩
        intro x hx
        show k < x
        rcases mem_keys_setVal hx with hx1 | hx1
        · subst hx1
          exact Nat.lt_of_le_of_ne (Nat.le_of_not_lt h1) (fun hh => h2 hh.symm)
        · exact hk x hx1

lemma findVal_eq_none_of_not_mem {α : Type} {t : Table α} {a : Nat}
    (h : a ∉ t.map (fun e => e.1)) : findVal t a = none := by
  induction t with
  | nil => rfl
  | cons kv rest ih =>
    obtain ⟨k, w⟩ := kv
    simp at h
    rw [findVal_cons, if_neg (fun hh => h.1 hh.symm)]
    exact ih (by simpa using h.2)

/-! ### Sum lemmas -/

lemma sumW_nil : sumW [] = 0 := rfl

lemma sumW_cons (k : Nat) (v : History) (t : Table History) :
    sumW ((k, v) :: t) = (histCurrent v).getD 0 + sumW t := by
  unfold sumW liveVals
  cases hc : histCurrent v with
  | none => simp [List.filterMap_cons, hc]
  | some w =>
    simp only [List.filterMap_cons, hc, Option.getD_some, List.foldl_cons, Nat.zero_add]
    exact foldl_add_init _ _

lemma mayLoad_cons (k : Nat) (v : History) (t : Table History) (a : Nat) :
    mayLoad ((k, v) :: t) a = if k = a then histCurrent v else mayLoad t a := by
  simp only [mayLoad, memHist, findVal_cons]
  split <;> rfl

lemma mayLoad_getD_le_sumW (t : Table History) (a : Nat) :
    (mayLoad t a).getD 0 ≤ sumW t := by
  induction t with
  | nil => simp [mayLoad, memHist, findVal, histCurrent_nil, sumW_nil]
  | cons kv rest ih =>
    obtain ⟨k, v⟩ := kv
    rw [sumW_cons, mayLoad_cons]
    split
    · exact Nat.le_add_right _ _
    · exact Nat.le_trans ih (Nat.le_add_left _ _)

lemma sumW_setVal {t : Table History} (hs : SortedKeys t) (a : Nat) (h : History) :
    sumW (setVal t a h) + (mayLoad t a).getD 0 = sumW t + (histCurrent h).getD 0 := by
  induction t with
  | nil => simp [setVal, sumW_cons, sumW_nil, mayLoad, memHist, findVal, histCurrent_nil]
  | cons kv rest ih =>
    obtain ⟨k, v⟩ := kv
    simp only [SortedKeys, List.map_cons, List.pairwise_cons] at hs
    obtain ⟨hk, hrest⟩ := hs
    simp only [setVal]
    split
    next h1 =>
      have hnm : a ∉ ((k, v) :: rest).map (fun e => e.1) := by
        simp only [List.map_cons, List.mem_cons]
        rintro (hh | hh)
        · omega
        · have hlt : k < a := hk a hh
          omega
      have hml : mayLoad ((k, v) :: rest) a = none := by
        simp [mayLoad, memHist, findVal_eq_none_of_not_mem hnm, histCurrent_nil]
      rw [hml, sumW_cons, sumW_cons]
      simp only [Option.getD_none]
      omega
    next h1 =>
      split
      next h2 =>
        subst h2
        rw [sumW_cons, sumW_cons, mayLoad_cons, if_pos rfl]
        omega
      next h2 =>
        have hka : ¬ k = a := fun hh => h2 hh.symm
        rw [sumW_cons, sumW_cons, mayLoad_cons, if_neg hka]
        have hih := ih hrest
        omega

lemma sumW_memSave {t : Table History} (hs : SortedKeys t) (a : Nat) (w ht : Nat) :
    sumW (memSave t a w ht) + (mayLoad t a).getD 0 = sumW t + w := by
  have h1 := sumW_setVal hs a (memHist t a ++ [(ht, some w)])
  rw [histCurrent_append_write] at h1
  simpa [memSave] using h1

lemma sumW_memRemove {t : Table History} (hs : SortedKeys t) (a : Nat) (ht : Nat) :
    sumW (memRemove t a ht) + (mayLoad t a).getD 0 = sumW t := by
  have h1 := sumW_setVal hs a (memHist t a ++ [(ht, none)])
  rw [histCurrent_append_write] at h1
  simpa [memRemove] using h1

/-! ### Live-member lemmas -/

lemma livePairs_keys_sublist (t : Table History) :
    List.Sublist ((livePairs t).map (fun e => e.1)) (t.map (fun e => e.1)) := by
  induction t with
  | nil => simp [livePairs]
  | cons kv rest ih =>
    obtain ⟨k, v⟩ := kv
    simp only [livePairs, List.filterMap_cons]
    cases hc : histCurrent v with
    | none => exact List.Sublist.cons k ih
    | some w =>
      simp only [Option.map_some, List.map_cons]
      exact List.Sublist.cons₂ k ih

lemma mem_livePairs_of_mayLoad {t : Table History} {a : Nat} {w : Nat}
    (h : mayLoad t a = some w) : (a, w) ∈ livePairs t := by
  unfold mayLoad memHist at h
  cases hf : t.find? (fun e => e.1 == a) with
  | none =>
    rw [show findVal t a = none by simp [findVal, hf]] at h
    simp [histCurrent] at h
  | some e =>
    rw [show findVal t a = some e.2 by simp [findVal, hf]] at h
    simp only [Option.getD_some] at h
    have hmem : e ∈ t := List.mem_of_find?_eq_some hf
    have hpred := List.find?_some hf
    have hea : e.1 = a := eq_of_beq hpred
    exact List.mem_filterMap.mpr ⟨e, hmem, by rw [h, hea]; rfl⟩

lemma mayLoad_of_mem_livePairs {t : Table History} {a : Nat} {w : Nat}
    (hs : SortedKeys t) (h : (a, w) ∈ livePairs t) : mayLoad t a = some w := by
  induction t with
  | nil => simp [livePairs] at h
  | cons kv rest ih =>
    obtain ⟨k, v⟩ := kv
    simp only [SortedKeys, List.map_cons, List.pairwise_cons] at hs
    obtain ⟨hk, hrest⟩ := hs
    simp only [livePairs, List.filterMap_cons] at h
    cases hc : histCurrent v with
    | none =>
      rw [hc] at h
      have hmemk : a ∈ rest.map (fun e => e.1) :=
        (livePairs_keys_sublist rest).subset (List.mem_map_of_mem (fun e => e.1) h)
      have hne : ¬ k = a := by
        intro hh
        have hlt : k < a := hk a hmemk
        omega
      rw [mayLoad_cons, if_neg hne]
      exact ih hrest h
    | some w0 =>
      rw [hc] at h
      rcases List.mem_cons.mp h with h | h
      · rw [Prod.mk.injEq] at h
        rw [mayLoad_cons, if_pos h.1.symm, hc, h.2]
      · have hmemk : a ∈ rest.map (fun e => e.1) :=
          (livePairs_keys_sublist rest).subset (List.mem_map_of_mem (fun e => e.1) h)
        have hne : ¬ k = a := by
          intro hh
          have hlt : k < a := hk a hmemk
          omega
        rw [mayLoad_cons, if_neg hne]
        exact ih hrest h

/-! ### Transaction-loop helper lemmas -/

lemma applyRemoves_skip {height : Nat} {r : Nat} {rest : List Nat} {s : ContractState}
    {total : Nat} {ds : List MemberDiff} (h : mayLoad s.members r = none) :
    applyRemoves height (r :: rest) s total ds = applyRemoves height rest s total ds := by
  simp only [applyRemoves, h]

lemma applyRemoves_ids (height : Nat) :
    ∀ (l : List Nat) (s : ContractState) (total : Nat) (ds : List MemberDiff) r,
      applyRemoves height l s total ds = .ok r → r.1.ids = s.ids := by
  intro l
  induction l with
  | nil =>
    intro s total ds r h
    simp only [applyRemoves] at h
    cases h
    rfl
  | cons a rest ih =>
    intro s total ds r h
    simp only [applyRemoves] at h
    split at h
    · exact ih _ _ _ _ h
    · split at h
      · cases h
      · have h2 := ih _ _ _ _ h
        exact h2

/-! ### Claim C1: failed transactions commit nothing -/

/-- C1. For every transaction (`create` or `update_members`) that fails at
any step, the state visible afterwards is the pre-state — so no member's
current or historical weight, no identity record and no aggregate value is
changed — and no hook notification message is produced. -/
theorem failedTransactionAtomic (s : ContractState) (height : Nat) (c : Call)
    (e : ContractError) (hfail : exec s height c = .error e) :
    hostStep s height c = s ∧ msgsOf s height c = [] ∧
    (hostStep s height c).members = s.members ∧
    (hostStep s height c).ids = s.ids ∧
    (hostStep s height c).total = s.total ∧
    (∀ a hq, query_member (hostStep s height c) a hq = query_member s a hq) ∧
    (∀ hq, query_total_weight (hostStep s height c) hq = query_total_weight s hq) := by
  have h1 : hostStep s height c = s := by unfold hostStep; rw [hfail]
  have h2 : msgsOf s height c = [] := by unfold msgsOf; rw [hfail]
  exact ⟨h1, h2, by rw [h1], by rw [h1], by rw [h1],
    fun a hq => by rw [h1], fun hq => by rw [h1]⟩

/-- Witness for C1: an unauthorized `update_members` call fails and
commits nothing. -/
theorem failedTransactionAtomic_witness :
    exec initState 1 (Call.update 0 [] []) = .error .unauthorized ∧
    hostStep initState 1 (Call.update 0 [] []) = initState ∧
    msgsOf initState 1 (Call.update 0 [] []) = [] := by
  refine ⟨rfl, ?_, ?_⟩
  · exact (failedTransactionAtomic initState 1 (Call.update 0 [] []) .unauthorized rfl).1
  · exact (failedTransactionAtomic initState 1 (Call.update 0 [] []) .unauthorized rfl).2.1

/-! ### Claim C5: overflow fails the whole transaction -/

/-- C5. The checked weight arithmetic fails exactly when the result would
leave the representable `u64` range, with the overflow error
(`WeightOverflow`); and a transaction failing with that error commits no
partial state and produces no notifications. -/
theorem weightOverflowAbortsAll :
    (∀ a b, checkedAdd a b = .error .weightOverflow ↔ U64LIM ≤ a + b) ∧
    (∀ a b, checkedSub a b = .error .weightOverflow ↔ a < b) ∧
    (∀ s height c, exec s height c = .error .weightOverflow →
      hostStep s height c = s ∧ msgsOf s height c = []) := by
  refine ⟨checkedAdd_error_iff, checkedSub_error_iff, ?_⟩
  intro s height c h
  constructor
  · unfold hostStep; rw [h]
  · unfold msgsOf; rw [h]

/-- Witness for C5: adding weight 2 to an aggregate of `2 ^ 64 - 1`
overflows, fails the call with the overflow error, and commits nothing. -/
theorem weightOverflowAbortsAll_witness :
    checkedAdd (U64LIM - 1) 2 = .error .weightOverflow ∧
    exec sOvf 3 (Call.update 7 [mOvf] []) = .error .weightOverflow ∧
    hostStep sOvf 3 (Call.update 7 [mOvf] []) = sOvf := by
  refine ⟨?_, rfl, ?_⟩
  · exact (weightOverflowAbortsAll.1 (U64LIM - 1) 2).mpr (by decide)
  · exact (weightOverflowAbortsAll.2.2 sOvf 3 (Call.update 7 [mOvf] []) rfl).1

/-! ### Claim C6: removing a non-member is a silent no-op -/

/-- C6. A remove of an address with no current weight is skipped entirely:
it raises no error, contributes no diff entry, and leaves the member
table, the identity table and the running total untouched — processing
continues exactly as if the address had not been listed. -/
theorem removeNonMemberNoOp :
    (∀ height r rest s total ds, mayLoad s.members r = none →
      applyRemoves height (r :: rest) s total ds = applyRemoves height rest s total ds) ∧
    (∀ s height sender rem r, mayLoad s.members r = none →
      updateMembers s height sender [] (r :: rem) = updateMembers s height sender [] rem) := by
  refine ⟨fun height r rest s total ds h => applyRemoves_skip h, ?_⟩
  intro s height sender rem r h
  unfold updateMembers
  cases hA : assertAdmin s.admin sender with
  | error e => rfl
  | ok u =>
    cases hT : loadTotal s with
    | error e => rfl
    | ok total =>
      simp only [applyAdds]
      rw [applyRemoves_skip h]

/-- Witness for C6: removing address 5 from a state where it has no
weight leaves the remove loop unchanged. -/
theorem removeNonMemberNoOp_witness :
    mayLoad initState.members 5 = none ∧
    applyRemoves 2 [5] initState 0 [] = applyRemoves 2 [] initState 0 [] := by
  exact ⟨rfl, removeNonMemberNoOp.1 2 5 [] initState 0 [] rfl⟩

/-! ### Claim C8: a missing aggregate is reported as zero -/

/-- C8. When no aggregate value has been recorded at or before the queried
height — and likewise when no aggregate exists at all — `query_total_weight`
returns weight `0` (it never returns an absent result or an error). -/
theorem queryTotalWeightAbsentZero (s : ContractState) :
    (∀ h, (∀ e ∈ s.total, ¬ e.1 ≤ h) → query_total_weight s (some h) = 0) ∧
    (s.total = [] → query_total_weight s none = 0) ∧
    (s.total = [] → ∀ h, query_total_weight s (some h) = 0) := by
  refine ⟨?_, ?_, ?_⟩
  · intro h hnone
    have hfil : s.total.filter (fun e => decide (e.1 ≤ h)) = [] := by
      rw [List.filter_eq_nil_iff]
      intro e he
      simpa using hnone e he
    show (histCurrent (s.total.filter (fun e => decide (e.1 ≤ h)))).getD 0 = 0
    rw [hfil]
    rfl
  · intro h0
    unfold query_total_weight
    rw [h0]
    rfl
  · intro h0 h
    unfold query_total_weight histAt
    rw [h0]
    rfl

/-- Witness for C8: querying the aggregate at height 4, before its first
write at height 5, yields 0. -/
theorem queryTotalWeightAbsentZero_witness :
    (∀ e ∈ sTot.total, ¬ e.1 ≤ 4) ∧ query_total_weight sTot (some 4) = 0 := by
  refine ⟨by decide, (queryTotalWeightAbsentZero sTot).1 4 (by decide)⟩

/-! ### Claim C9: an absent weight hides the identity -/

/-- C9. Whenever the weight lookup of `query_member` is absent (never
added, or removed at or before the queried point), the response is weight
`none` and identity `none` — even though removal never touches the stored
identity table — and an identity is only ever reported alongside a present
weight. -/
theorem queryMemberAbsentHidesIdentity :
    (∀ s a hq, memberAt s a hq = none →
      query_member s a hq = { weight := none, identity := none }) ∧
    (∀ s a hq, (query_member s a hq).identity.isSome →
      (query_member s a hq).weight.isSome) ∧
    (∀ height l s total ds r, applyRemoves height l s total ds = .ok r →
      r.1.ids = s.ids) := by
  refine ⟨?_, ?_, fun height l => applyRemoves_ids height l⟩
  · intro s a hq h
    unfold query_member
    rw [h]
  · intro s a hq
    cases h : memberAt s a hq with
    | none =>
      have h1 : query_member s a hq = { weight := none, identity := none } := by
        unfold query_member; rw [h]
      rw [h1]
      intro hid
      simp at hid
    | some w =>
      have h1 : query_member s a hq = { weight := some w, identity := findVal s.ids a } := by
        unfold query_member; rw [h]
      rw [h1]
      intro hid
      rfl

/-! ### Aggregate invariant machinery -/

lemma le_foldl_add (l : List Nat) (x : Nat) :
    x ≤ List.foldl (fun a b => a + b) x l := by
  induction l generalizing x with
  | nil => simp
  | cons a l ih =>
    simp only [List.foldl_cons]
    exact le_trans (Nat.le_add_right x a) (ih (x + a))

lemma foldl_take_le (l : List Nat) (n : Nat) :
    List.foldl (fun a b => a + b) 0 (l.take n) ≤ List.foldl (fun a b => a + b) 0 l := by
  conv_rhs => rw [← List.take_append_drop n l]
  rw [List.foldl_append]
  exact le_foldl_add _ _

lemma applyAdds_bound (height : Nat) :
    ∀ (l : List Member) (s : ContractState) (total : Nat) (ds : List MemberDiff) r,
      applyAdds height l s total ds = .ok r →
      SortedKeys s.members → sumW s.members ≤ total → total < U64LIM →
      SortedKeys r.1.members ∧ sumW r.1.members ≤ r.2.1 ∧ r.2.1 < U64LIM := by
  intro l
  induction l with
  | nil =>
    intro s total ds r h hs hle hlt
    simp only [applyAdds] at h
    cases h
    exact ⟨hs, hle, hlt⟩
  | cons m rest ih =>
    intro s total ds r h hs hle hlt
    simp only [applyAdds] at h
    split at h
    · cases h
    next t1 heq1 =>
      split at h
      · cases h
      next t2 heq2 =>
        obtain ⟨hsub, ht1⟩ := checkedSub_ok heq1
        obtain ⟨hadd, ht2⟩ := checkedAdd_ok heq2
        have hs2 : SortedKeys (memSave s.members m.addr m.weight height) :=
          sortedKeys_setVal hs _ _
        have hsum := sumW_memSave hs m.addr m.weight height
        have hold := mayLoad_getD_le_sumW s.members m.addr
        refine ih _ _ _ _ h hs2 ?_ ?_
        · show sumW (memSave s.members m.addr m.weight height) ≤ t2
          omega
        · omega

lemma applyAdds_eq (height : Nat) :
    ∀ (l : List Member) (s : ContractState) (total : Nat) (ds : List MemberDiff) r,
      applyAdds height l s total ds = .ok r →
      SortedKeys s.members → sumW s.members = total →
      SortedKeys r.1.members ∧ sumW r.1.members = r.2.1 := by
  intro l
  induction l with
  | nil =>
    intro s total ds r h hs hsum
    simp only [applyAdds] at h
    cases h
    exact ⟨hs, hsum⟩
  | cons m rest ih =>
    intro s total ds r h hs hsum
    simp only [applyAdds] at h
    split at h
    · cases h
    next t1 heq1 =>
      split at h
      · cases h
      next t2 heq2 =>
        obtain ⟨hsub, ht1⟩ := checkedSub_ok heq1
        obtain ⟨hadd, ht2⟩ := checkedAdd_ok heq2
        have hs2 : SortedKeys (memSave s.members m.addr m.weight height) :=
          sortedKeys_setVal hs _ _
        have hsave := sumW_memSave hs m.addr m.weight height
        have hold := mayLoad_getD_le_sumW s.members m.addr
        refine ih _ _ _ _ h hs2 ?_
        show sumW (memSave s.members m.addr m.weight height) = t2
        omega

lemma applyRemoves_bound (height : Nat) :
    ∀ (l : List Nat) (s : ContractState) (total : Nat) (ds : List MemberDiff) r,
      applyRemoves height l s total ds = .ok r →
      SortedKeys s.members → sumW s.members ≤ total → total < U64LIM →
      SortedKeys r.1.members ∧ sumW r.1.members ≤ r.2.1 ∧ r.2.1 < U64LIM := by
  intro l
  induction l with
  | nil =>
    intro s total ds r h hs hle hlt
    simp only [applyRemoves] at h
    cases h
    exact ⟨hs, hle, hlt⟩
  | cons a rest ih =>
    intro s total ds r h hs hle hlt
    simp only [applyRemoves] at h
    split at h
    · exact ih _ _ _ _ h hs hle hlt
    next w heqm =>
      split at h
      · cases h
      next t1 heq1 =>
        obtain ⟨hsub, ht1⟩ := checkedSub_ok heq1
        have hs2 : SortedKeys (memRemove s.members a height) :=
          sortedKeys_setVal hs _ _
        have hrem := sumW_memRemove hs a height
        rw [heqm] at hrem
        simp only [Option.getD_some] at hrem
        refine ih _ _ _ _ h hs2 ?_ ?_
        · show sumW (memRemove s.members a height) ≤ t1
          omega
        · omega

lemma applyRemoves_eq (height : Nat) :
    ∀ (l : List Nat) (s : ContractState) (total : Nat) (ds : List MemberDiff) r,
      applyRemoves height l s total ds = .ok r →
      SortedKeys s.members → sumW s.members = total →
      SortedKeys r.1.members ∧ sumW r.1.members = r.2.1 := by
  intro l
  induction l with
  | nil =>
    intro s total ds r h hs hsum
    simp only [applyRemoves] at h
    cases h
    exact ⟨hs, hsum⟩
  | cons a rest ih =>
    intro s total ds r h hs hsum
    simp only [applyRemoves] at h
    split at h
    · exact ih _ _ _ _ h hs hsum
    next w heqm =>
      split at h
      · cases h
      next t1 heq1 =>
        obtain ⟨hsub, ht1⟩ := checkedSub_ok heq1
        have hs2 : SortedKeys (memRemove s.members a height) :=
          sortedKeys_setVal hs _ _
        have hrem := sumW_memRemove hs a height
        rw [heqm] at hrem
        simp only [Option.getD_some] at hrem
        refine ih _ _ _ _ h hs2 ?_
        show sumW (memRemove s.members a height) = t1
        omega

lemma createLoop_bound (height : Nat) :
    ∀ (l : List Member) (total : Nat) (mems : Table History) (ids : Table String) r,
      createLoop height l total mems ids = .ok r →
      SortedKeys mems → sumW mems ≤ total → total < U64LIM →
      SortedKeys r.2.1 ∧ sumW r.2.1 ≤ r.1 ∧ r.1 < U64LIM := by
  intro l
  induction l with
  | nil =>
    intro total mems ids r h hs hle hlt
    simp only [createLoop] at h
    cases h
    exact ⟨hs, hle, hlt⟩
  | cons m rest ih =>
    intro total mems ids r h hs hle hlt
    simp only [createLoop] at h
    split at h
    · cases h
    next total1 heq1 =>
      obtain ⟨hadd, ht1⟩ := checkedAdd_ok heq1
      have hs2 : SortedKeys (memSave mems m.addr m.weight height) :=
        sortedKeys_setVal hs _ _
      have hsave := sumW_memSave hs m.addr m.weight height
      have hold := mayLoad_getD_le_sumW mems m.addr
      refine ih _ _ _ _ h hs2 ?_ ?_
      · omega
      · omega

lemma createLoop_eq (height : Nat) :
    ∀ (l : List Member) (total : Nat) (mems : Table History) (ids : Table String) r,
      createLoop height l total mems ids = .ok r →
      SortedKeys mems →
      (∀ m ∈ l, m.addr ∉ mems.map (fun e => e.1)) →
      (l.map Member.addr).Nodup →
      sumW mems = total →
      SortedKeys r.2.1 ∧ sumW r.2.1 = r.1 := by
  intro l
  induction l with
  | nil =>
    intro total mems ids r h hs hdisj hnd hsum
    simp only [createLoop] at h
    cases h
    exact ⟨hs, hsum⟩
  | cons m rest ih =>
    intro total mems ids r h hs hdisj hnd hsum
    simp only [createLoop] at h
    split at h
    · cases h
    next total1 heq1 =>
      obtain ⟨hadd, ht1⟩ := checkedAdd_ok heq1
      have hs2 : SortedKeys (memSave mems m.addr m.weight height) :=
        sortedKeys_setVal hs _ _
      have hsave := sumW_memSave hs m.addr m.weight height
      have hnotm : m.addr ∉ mems.map (fun e => e.1) := hdisj m (List.mem_cons_self m rest)
      have hml : mayLoad mems m.addr = none := by
        simp [mayLoad, memHist, findVal_eq_none_of_not_mem hnotm, histCurrent_nil]
      rw [hml] at hsave
      simp only [Option.getD_none, Nat.add_zero] at hsave
      simp only [List.map_cons, List.nodup_cons] at hnd
      refine ih _ _ _ _ h hs2 ?_ hnd.2 ?_
      · intro m2 hm2 hmem
        rcases mem_keys_setVal hmem with hx | hx
        · exact hnd.1 (hx ▸ List.mem_map_of_mem Member.addr hm2)
        · exact hdisj m2 (List.mem_cons_of_mem m hm2) hx
      · omega

lemma loadTotal_inv {s : ContractState} {T total : Nat}
    (hT : histCurrent s.total = some T) (h : loadTotal s = .ok total) : total = T := by
  unfold loadTotal at h
  rw [hT] at h
  cases h
  rfl

lemma updateMembers_bound {s : ContractState} {height sender : Nat}
    {toAdd : List Member} {toRemove : List Nat} {s1 : ContractState} {d : List MemberDiff}
    (h : updateMembers s height sender toAdd toRemove = .ok (s1, d))
    (hs : SortedKeys s.members) (T : Nat) (hT : histCurrent s.total = some T)
    (hle : sumW s.members ≤ T) (hlt : T < U64LIM) :
    SortedKeys s1.members ∧
      ∃ T1, histCurrent s1.total = some T1 ∧ sumW s1.members ≤ T1 ∧ T1 < U64LIM := by
  simp only [updateMembers] at h
  split at h
  · cases h
  split at h
  · cases h
  next total heqT =>
    have htot : total = T := loadTotal_inv hT heqT
    subst htot
    split at h
    · cases h
    next r1 heqA =>
      split at h
      · cases h
      next r2 heqR =>
        split at h
        · cases h
        next hW =>
          cases h
          obtain ⟨hsA, hleA, hltA⟩ := applyAdds_bound height _ _ _ _ _ heqA hs hle hlt
          obtain ⟨hsR, hleR, hltR⟩ := applyRemoves_bound height _ _ _ _ _ heqR hsA hleA hltA
          refine ⟨hsR, r2.2.1, ?_, hleR, hltR⟩
          exact histCurrent_append_write _ _ _

lemma updateMembers_eq {s : ContractState} {height sender : Nat}
    {toAdd : List Member} {toRemove : List Nat} {s1 : ContractState} {d : List MemberDiff}
    (h : updateMembers s height sender toAdd toRemove = .ok (s1, d))
    (hs : SortedKeys s.members) (hT : histCurrent s.total = some (sumW s.members)) :
    SortedKeys s1.members ∧ histCurrent s1.total = some (sumW s1.members) := by
  simp only [updateMembers] at h
  split at h
  · cases h
  split at h
  · cases h
  next total heqT =>
    have htot : total = sumW s.members := loadTotal_inv hT heqT
    subst htot
    split at h
    · cases h
    next r1 heqA =>
      split at h
      · cases h
      next r2 heqR =>
        split at h
        · cases h
        next hW =>
          cases h
          obtain ⟨hsA, hsumA⟩ := applyAdds_eq height _ _ _ _ _ heqA hs rfl
          obtain ⟨hsR, hsumR⟩ := applyRemoves_eq height _ _ _ _ _ heqR hsA hsumA
          refine ⟨hsR, ?_⟩
          rw [histCurrent_append_write, hsumR]

lemma createE_bound {admin : Option Nat} {members : List Member}
    {minW maxW height : Nat} {s1 : ContractState}
    (h : createE admin members minW maxW height = .ok s1) :
    SortedKeys s1.members ∧
      ∃ T, histCurrent s1.total = some T ∧ sumW s1.members ≤ T ∧ T < U64LIM := by
  simp only [createE, createFrom] at h
  split at h
  · cases h
  next r heqL =>
    split at h
    · cases h
    next hW =>
      cases h
      obtain ⟨hsL, hleL, hltL⟩ :=
        createLoop_bound height _ _ _ _ _ heqL (by simp [SortedKeys, initState])
          (by simp [sumW_nil, initState]) (by simp [U64LIM])
      exact ⟨hsL, r.1, histCurrent_append_write _ _ _, hleL, hltL⟩

lemma createE_eq {admin : Option Nat} {members : List Member}
    {minW maxW height : Nat} {s1 : ContractState}
    (hnd : (members.map Member.addr).Nodup)
    (h : createE admin members minW maxW height = .ok s1) :
    SortedKeys s1.members ∧ histCurrent s1.total = some (sumW s1.members) := by
  simp only [createE, createFrom] at h
  split at h
  · cases h
  next r heqL =>
    split at h
    · cases h
    next hW =>
      cases h
      obtain ⟨hsL, hsumL⟩ :=
        createLoop_eq height _ _ _ _ _ heqL (by simp [SortedKeys, initState])
          (by simp [initState]) hnd (by simp [sumW_nil, initState])
      refine ⟨hsL, ?_⟩
      rw [histCurrent_append_write, hsumL]

lemma reachable_inv {s : ContractState} (h : Reachable s) :
    SortedKeys s.members ∧
      ∃ T, histCurrent s.total = some T ∧ sumW s.members ≤ T ∧ T < U64LIM := by
  induction h with
  | create admin members minW maxW height s h => exact createE_bound h
  | update s height sender toAdd toRemove s1 d hr hu ih =>
    obtain ⟨hs, T, hT, hle, hlt⟩ := ih
    exact updateMembers_bound hu hs T hT hle hlt

lemma reachableD_inv {s : ContractState} (h : ReachableD s) :
    SortedKeys s.members ∧ histCurrent s.total = some (sumW s.members) := by
  induction h with
  | create admin members minW maxW height s hnd h => exact createE_eq hnd h
  | update s height sender toAdd toRemove s1 d hr hu ih =>
    exact updateMembers_eq hu ih.1 ih.2

/-! ### Claim C10: the re-derivation fold in assert_weights cannot overflow -/

/-- C10. In every state reachable through `create` and `update_members`,
the sum of all live member weights is below `2 ^ 64` — and so is every
partial sum of the left fold `assert_weights` performs over them, so its
unchecked u64 addition never overflows. (The stored aggregate, maintained
with checked arithmetic, bounds the live sum.) -/
theorem assertWeightsFoldNoOverflow (s : ContractState) (h : Reachable s) :
    sumW s.members < U64LIM ∧
    ∀ n, List.foldl (fun a b => a + b) 0 ((liveVals s.members).take n) < U64LIM := by
  obtain ⟨hs, T, hT, hle, hlt⟩ := reachable_inv h
  have h1 : sumW s.members < U64LIM := lt_of_le_of_lt hle hlt
  exact ⟨h1, fun n => lt_of_le_of_lt (foldl_take_le _ n) h1⟩

/-- Witness for C10: the live sum of a concretely created state is below
`2 ^ 64`. -/
theorem assertWeightsFoldNoOverflow_witness :
    sumW sReach.members < U64LIM :=
  (assertWeightsFoldNoOverflow sReach
    (Reachable.create none [mA] 0 10 1 sReach rfl)).1

/-! ### Claim C3: the stored aggregate vs the live sum -/

/-- Counterexample to C3 as stated: `create` with a duplicated member
address succeeds, but stores aggregate TOTAL 2 while the live member
weights sum to 1 — the claimed equality fails after this successful
transaction. -/
theorem totalMatchesLiveSum_counterexample :
    createE none dupMembers 0 10 1 = .ok sDup ∧
    histCurrent sDup.total = some 2 ∧
    sumW sDup.members = 1 ∧
    histCurrent sDup.total ≠ some (sumW sDup.members) := by
  refine ⟨rfl, rfl, rfl, ?_⟩
  intro hcontra
  rw [show histCurrent sDup.total = some 2 from rfl,
    show sumW sDup.members = 1 from rfl] at hcontra
  cases hcontra

/-- C3 (amended). After every successful transaction in a history whose
initial `create` was given pairwise-distinct member addresses, the stored
aggregate TOTAL equals the sum of the current weights of all live members.
(`create` itself adds up the input weights with duplicates, so a
duplicate-address create can store a TOTAL above the live sum.) -/
theorem totalMatchesLiveSum (s : ContractState) (h : ReachableD s) :
    histCurrent s.total = some (sumW s.members) :=
  (reachableD_inv h).2

/-- Witness for C3: in a concretely created state (distinct addresses)
the stored aggregate equals the live sum. -/
theorem totalMatchesLiveSum_witness :
    histCurrent sReach.total = some (sumW sReach.members) :=
  totalMatchesLiveSum sReach
    (ReachableD.create none [mA] 0 10 1 sReach (by decide) rfl)

/-! ### Claim C2: bound enforcement -/

lemma createFrom_assert {s0 : ContractState} {admin : Option Nat} {members : List Member}
    {minW maxW height : Nat} {s2 : ContractState}
    (h : createFrom s0 admin members minW maxW height = .ok s2) :
    assertWeights s2 = .ok () := by
  simp only [createFrom] at h
  split at h
  · cases h
  next r heqL =>
    split at h
    · cases h
    next u hW =>
      cases h
      cases u
      exact hW

lemma exec_ok_assert {s : ContractState} {height : Nat} {c : Call}
    {s1 : ContractState} {out : List HookMsg}
    (h : exec s height c = .ok (s1, out)) : assertWeights s1 = .ok () := by
  cases c with
  | create admin members minW maxW =>
    simp only [exec] at h
    split at h
    · cases h
    next s2 heqC =>
      cases h
      exact createFrom_assert heqC
  | update sender toAdd toRemove =>
    simp only [exec] at h
    split at h
    · cases h
    next r heqU =>
      split at h
      · cases h
      next u hW =>
        cases h
        cases u
        exact hW

/-- Counterexample to C2 as stated: with bounds `min = 10`, `max = 5` and
a post-transaction live sum of 7, the sum is less than `min_weight`, yet
the call fails with `MaxWeightExceeded`, not `MinWeightNotMet` — the code
checks the upper bound first. -/
theorem boundsEnforced_counterexample :
    sumW (memSave [] 0 7 3) = 7 ∧
    createE none [mC2] 10 5 3 = .error .maxWeightExceeded ∧
    createE none [mC2] 10 5 3 ≠ .error .minWeightNotMet := by
  refine ⟨rfl, rfl, ?_⟩
  intro hcontra
  rw [show createE none [mC2] 10 5 3 = .error .maxWeightExceeded from rfl] at hcontra
  cases hcontra

/-- C2 (amended). The bound check on the post-transaction live sum fails
with `MaxWeightExceeded` whenever the sum exceeds `max_weight`, fails with
`MinWeightNotMet` whenever the sum is below `min_weight` and not above
`max_weight` (when both bounds are violated — possible only when
`min_weight > max_weight` — the upper-bound error takes precedence), and
succeeds when `min_weight ≤ sum ≤ max_weight`. No out-of-bounds state can
commit: every state returned by a successful `create` or `update_members`
passed the bound check, and a failing call commits nothing and notifies
nobody. -/
theorem boundsEnforced (s : ContractState) (minw maxw : Nat)
    (hmin : s.minWeight = some minw) (hmax : s.maxWeight = some maxw) :
    (maxw < sumW s.members → assertWeights s = .error .maxWeightExceeded) ∧
    (sumW s.members < minw → sumW s.members ≤ maxw →
      assertWeights s = .error .minWeightNotMet) ∧
    (minw ≤ sumW s.members → sumW s.members ≤ maxw → assertWeights s = .ok ()) ∧
    (∀ height c s1 out, exec s height c = .ok (s1, out) → assertWeights s1 = .ok ()) ∧
    (∀ height c e, exec s height c = .error e →
      hostStep s height c = s ∧ msgsOf s height c = []) := by
  have hAW : assertWeights s =
      (if maxw < sumW s.members then .error .maxWeightExceeded
       else if sumW s.members < minw then .error .minWeightNotMet
       else .ok ()) := by
    unfold assertWeights loadItem
    rw [hmin, hmax]
  refine ⟨?_, ?_, ?_, ?_, ?_⟩
  · intro h1
    rw [hAW, if_pos h1]
  · intro h1 h2
    rw [hAW, if_neg (by omega), if_pos h1]
  · intro h1 h2
    rw [hAW, if_neg (by omega), if_neg (by omega)]
  · intro height c s1 out h
    exact exec_ok_assert h
  · intro height c e h
    exact ⟨by unfold hostStep; rw [h], by unfold msgsOf; rw [h]⟩

/-- Witness for C2: a live sum of 30 within bounds `[1, 100]` passes the
bound check. -/
theorem boundsEnforced_witness :
    sW2.minWeight = some 1 ∧ sW2.maxWeight = some 100 ∧
    1 ≤ sumW sW2.members ∧ sumW sW2.members ≤ 100 ∧
    assertWeights sW2 = .ok () := by
  refine ⟨rfl, rfl, by decide, by decide, ?_⟩
  exact (boundsEnforced sW2 1 100 rfl rfl).2.2.1 (by decide) (by decide)

/-! ### Claim C4: the diff record -/

lemma applyAdds_spec (height : Nat) :
    ∀ (l : List Member) (s : ContractState) (total : Nat) (ds : List MemberDiff) r
      (w : Nat → Option Nat),
      applyAdds height l s total ds = .ok r →
      (∀ a, mayLoad s.members a = w a) →
      r.2.2 = ds ++ (specAddDiffs w l).1 ∧
      (∀ a, mayLoad r.1.members a = (specAddDiffs w l).2 a) := by
  intro l
  induction l with
  | nil =>
    intro s total ds r w h hw
    simp only [applyAdds] at h
    cases h
    exact ⟨by simp [specAddDiffs], fun a => by simpa only [specAddDiffs] using hw a⟩
  | cons m rest ih =>
    intro s total ds r w h hw
    simp only [applyAdds] at h
    split at h
    · cases h
    next t1 heq1 =>
      split at h
      · cases h
      next t2 heq2 =>
        have hview : ∀ a,
            mayLoad (memSave s.members m.addr m.weight height) a =
              (fun a => if a = m.addr then some m.weight else w a) a := by
          intro a
          rw [mayLoad_memSave]
          by_cases hav : a = m.addr
          · simp [hav]
          · simp only [if_neg hav]
            exact hw a
        obtain ⟨hd, hv⟩ := ih _ _ _ _ _ h hview
        constructor
        · rw [hd]
          simp only [specAddDiffs]
          rw [hw m.addr]
          simp [List.append_assoc]
        · intro a
          simpa only [specAddDiffs] using hv a

lemma applyRemoves_spec (height : Nat) :
    ∀ (l : List Nat) (s : ContractState) (total : Nat) (ds : List MemberDiff) r
      (w : Nat → Option Nat),
      applyRemoves height l s total ds = .ok r →
      (∀ a, mayLoad s.members a = w a) →
      r.2.2 = ds ++ specRemoveDiffs w l := by
  intro l
  induction l with
  | nil =>
    intro s total ds r w h hw
    simp only [applyRemoves] at h
    cases h
    simp [specRemoveDiffs]
  | cons a rest ih =>
    intro s total ds r w h hw
    simp only [applyRemoves] at h
    split at h
    next heqm =>
      have hwa : w a = none := by rw [← hw a]; exact heqm
      rw [ih _ _ _ _ _ h hw]
      simp only [specRemoveDiffs, hwa]
    next w0 heqm =>
      split at h
      · cases h
      next t1 heq1 =>
        have hwa : w a = some w0 := by rw [← hw a]; exact heqm
        have hview : ∀ b,
            mayLoad (memRemove s.members a height) b =
              (fun x => if x = a then none else w x) b := by
          intro b
          rw [mayLoad_memRemove]
          by_cases hba : b = a
          · simp [hba]
          · simp only [if_neg hba]
            exact hw b
        rw [ih _ _ _ _ _ h hview]
        simp only [specRemoveDiffs, hwa]
        simp [List.append_assoc]

/-- C4. The diff returned by every successful `update_members` is exactly
the specification diff: one `(address, old_weight_or_absent,
Some(new_weight))` triple per added member in input order (the old value
being the member's weight just before that add is applied), followed by
one `(address, Some(old_weight), None)` triple per removed address that
was a member when its removal was processed, in input order; removes of
non-members contribute no triple. -/
theorem updateDiffMatchesSpec (s : ContractState) (height sender : Nat)
    (toAdd : List Member) (toRemove : List Nat) (s1 : ContractState)
    (d : List MemberDiff)
    (h : updateMembers s height sender toAdd toRemove = .ok (s1, d)) :
    d = specDiff (fun a => mayLoad s.members a) toAdd toRemove := by
  simp only [updateMembers] at h
  split at h
  · cases h
  split at h
  · cases h
  next total heqT =>
    split at h
    · cases h
    next r1 heqA =>
      split at h
      · cases h
      next r2 heqR =>
        split at h
        · cases h
        next hW =>
          cases h
          obtain ⟨hd1, hv1⟩ :=
            applyAdds_spec height _ _ _ _ _ _ heqA (fun a => rfl)
          have hd2 := applyRemoves_spec height _ _ _ _ _ _ heqR hv1
          rw [hd2, hd1]
          simp [specDiff]

/-- Witness for C4: a concrete successful `update_members` whose diff is
the specification diff — the add triple in input order followed by the
remove triple. -/
theorem updateDiffMatchesSpec_witness :
    updateMembers sAdm 2 7 [mB] [0] = .ok updW ∧
    updW.2 = specDiff (fun a => mayLoad sAdm.members a) [mB] [0] ∧
    updW.2 = [{ key := 1, old := none, new := some 5 },
              { key := 0, old := some 1, new := none }] := by
  refine ⟨rfl, ?_, rfl⟩
  exact updateDiffMatchesSpec sAdm 2 7 [mB] [0] updW.1 updW.2 rfl

/-! ### Claim C7: paginated member listing -/

lemma saPred_true_iff (sa : Option Nat) (e : Nat × Nat) :
    saPred sa e = true ↔ ∀ b, sa = some b → b < e.1 := by
  cases sa with
  | none => simp [saPred]
  | some b => simp [saPred]

/-- C7. `query_list_members` returns currently-live members only, in
strictly ascending address order, all strictly after `start_after` when it
is given, with at most `limit` entries where `limit` defaults to
`DEFAULT_LIMIT` (10) when absent and is capped at `MAX_LIMIT` (30); and
whenever the result is not cut off by the limit it contains every live
member after the cursor. Removed members (current weight absent) never
appear. -/
theorem listMembersPaginated (s : ContractState) (hs : SortedKeys s.members)
    (sa : Option Nat) (lim : Option Nat) :
    List.Pairwise (fun a b => a < b) ((query_list_members s sa lim).map Member.addr) ∧
    (∀ m ∈ query_list_members s sa lim,
      mayLoad s.members m.addr = some m.weight ∧ ∀ b, sa = some b → b < m.addr) ∧
    (query_list_members s sa lim).length ≤ min (lim.getD DEFAULT_LIMIT) MAX_LIMIT ∧
    (query_list_members s sa lim).length ≤ MAX_LIMIT ∧
    (lim = none → (query_list_members s sa lim).length ≤ DEFAULT_LIMIT) ∧
    ((query_list_members s sa lim).length < min (lim.getD DEFAULT_LIMIT) MAX_LIMIT →
      ∀ a w, mayLoad s.members a = some w → (∀ b, sa = some b → b < a) →
        (a, w) ∈ (query_list_members s sa lim).map (fun m => (m.addr, m.weight))) := by
  have hql : query_list_members s sa lim =
      (((livePairs s.members).filter (saPred sa)).take
        (min (lim.getD DEFAULT_LIMIT) MAX_LIMIT)).map
        (fun e => { addr := e.1, weight := e.2,
                    identity := (findVal s.ids e.1).getD defaultId }) := rfl
  have hmapaddr : (query_list_members s sa lim).map Member.addr =
      (((livePairs s.members).filter (saPred sa)).take
        (min (lim.getD DEFAULT_LIMIT) MAX_LIMIT)).map (fun e => e.1) := by
    rw [hql, List.map_map]
    rfl
  have hsub1 : List.Sublist ((query_list_members s sa lim).map Member.addr)
      (s.members.map (fun e => e.1)) := by
    rw [hmapaddr]
    exact (((List.take_sublist _ _).trans (List.filter_sublist _)).map _).trans
      (livePairs_keys_sublist _)
  have hlen : (query_list_members s sa lim).length ≤
      min (lim.getD DEFAULT_LIMIT) MAX_LIMIT := by
    rw [hql, List.length_map]
    exact List.length_take_le _ _
  refine ⟨hs.sublist hsub1, ?_, hlen, le_trans hlen (Nat.min_le_right _ _), ?_, ?_⟩
  · intro m hm
    rw [hql] at hm
    obtain ⟨e, he, hbuild⟩ := List.mem_map.mp hm
    have hef : e ∈ (livePairs s.members).filter (saPred sa) :=
      (List.take_sublist _ _).subset he
    obtain ⟨hel, hep⟩ := List.mem_filter.mp hef
    have haddr : m.addr = e.1 := by rw [← hbuild]
    have hweight : m.weight = e.2 := by rw [← hbuild]
    constructor
    · rw [haddr, hweight]
      exact mayLoad_of_mem_livePairs hs hel
    · intro b hb
      rw [haddr]
      exact (saPred_true_iff sa e).mp hep b hb
  · intro hnone
    subst hnone
    have hmin : min ((none : Option Nat).getD DEFAULT_LIMIT) MAX_LIMIT = DEFAULT_LIMIT := by
      decide
    rw [hmin] at hlen
    exact hlen
  · intro hlt a w hml hpred
    rw [hql, List.length_map, List.length_take] at hlt
    have hflen : ((livePairs s.members).filter (saPred sa)).length ≤
        min (lim.getD DEFAULT_LIMIT) MAX_LIMIT := by
      omega
    have htake : ((livePairs s.members).filter (saPred sa)).take
        (min (lim.getD DEFAULT_LIMIT) MAX_LIMIT) =
        (livePairs s.members).filter (saPred sa) :=
      List.take_of_length_le hflen
    rw [hql, htake, List.map_map]
    have hmemf : (a, w) ∈ (livePairs s.members).filter (saPred sa) :=
      List.mem_filter.mpr ⟨mem_livePairs_of_mayLoad hml,
        (saPred_true_iff sa (a, w)).mpr (fun b hb => hpred b hb)⟩
    exact List.mem_map.mpr ⟨(a, w), hmemf, rfl⟩

/-- Witness for C7: listing after cursor 0 with no explicit limit returns
exactly the live member `(2, 5)` — the removed member 1 is skipped — and
respects the default limit. -/
theorem listMembersPaginated_witness :
    SortedKeys sList.members ∧
    (query_list_members sList (some 0) none).map (fun m => (m.addr, m.weight))
      = [(2, 5)] ∧
    (query_list_members sList (some 0) none).length ≤ DEFAULT_LIMIT := by
  have hs : SortedKeys sList.members := by
    show List.Pairwise (fun a b => a < b) (sList.members.map (fun e => e.1))
    decide
  exact ⟨hs, rfl,
    (listMembersPaginated sList hs (some 0) none).2.2.2.2.1 rfl⟩

/-- Witness for C9: a removed member's stored identity is still present in
the identity table, yet `query_member` reports both fields absent. -/
theorem queryMemberAbsentHidesIdentity_witness :
    memberAt sRem 0 none = none ∧
    findVal sRem.ids 0 = some defaultId ∧
    query_member sRem 0 none = { weight := none, identity := none } := by
  exact ⟨rfl, rfl, queryMemberAbsentHidesIdentity.1 sRem 0 none rfl⟩

end Senate
